import Mathlib

/-!
Shallow embedding of the QPF backend core (repository QPFAI/qpf-backend)
and proofs about it.

Sources embedded:
- src/symbolic_modules/math_core.py  (activation, entropy, collapse_weights,
  softmax, check_collapse, EPS)
- src/q_core_modules/memory_graph.py (MemoryEvent, MemoryGraph: add_event,
  link_events, save_json, load_json)
- src/q_core_modules/contextual_retriever.py (ContextualRetriever.retrieve_semantic)
- src/main.py (load_qpf_math_state, the numeric end-to-end protocol of
  QPFAssistant.chat)

Modelling conventions:
- Python floats are modelled by real numbers (ℝ); numpy vectors by lists.
- JSON-representable Python data (dict payloads, the persisted weight file)
  is modelled by the inductive JValue of JSON values, with numbers as ℚ.
- datetime.datetime is modelled by the record DT below; str is modelled by
  String except for ISO-8601 timestamp strings, which are modelled as lists
  of ASCII character codes (List Nat) so that formatting and parsing are
  plain arithmetic.
- Stateful methods that mutate self become pure functions returning the new
  value; methods that can raise return Except/Option.
-/

namespace QPF

/-! ## math_core.py -/

/-- Constant EPS = 1e-12 from src/symbolic_modules/math_core.py, used for
numerical stability in entropy and softmax. -/
def EPS : ℝ := 1e-12

/-- Sigmoid activation from math_core.activation:
a_i = 1 / (1 + exp (-w_i)), applied elementwise to the weight vector. -/
noncomputable def activation (w : List ℝ) : List ℝ :=
  w.map (fun x => 1 / (1 + Real.exp (-x)))

/-- Entropy from math_core.entropy: S = -sum (a_i^2 * log (a_i^2 + EPS)).
The np.sum over elementwise operations becomes a list sum. -/
noncomputable def entropy (a : List ℝ) : ℝ :=
  -((a.map (fun x => x ^ 2 * Real.log (x ^ 2 + EPS))).sum)

/-- Helper modelling the numpy in-place update w_new[idx] += alpha.
Out-of-range indices leave the list unchanged (Python would raise IndexError;
all uses in the repository index in range). -/
def addAt : List ℝ → ℕ → ℝ → List ℝ
  | [], _, _ => []
  | x :: xs, 0, v => (x + v) :: xs
  | x :: xs, n + 1, v => x :: addAt xs n v

/-- Collapse update from math_core.collapse_weights:
w_new = (1 - alpha) * w, then w_new[collapsed_index] += alpha. -/
def collapse_weights (w : List ℝ) (collapsed_index : ℕ) (alpha : ℝ) : List ℝ :=
  addAt (w.map (fun x => (1 - alpha) * x)) collapsed_index alpha

/-- Collapse trigger from math_core.check_collapse: S > S_crit (strict). -/
def check_collapse (S S_crit : ℝ) : Prop := S > S_crit

/-- Model of np.max on a vector: maximum of the elements. np.max raises on an
empty array; the claims only apply it to nonempty vectors, and we return 0
there so the function stays total. -/
noncomputable def npMax : List ℝ → ℝ
  | [] => 0
  | x :: xs => xs.foldl max x

/-- Numerically stable softmax from math_core.softmax:
z = x - max x; exp_z = exp z; result = exp_z / (sum exp_z + EPS). -/
noncomputable def softmax (x : List ℝ) : List ℝ :=
  let z := x.map (fun xi => xi - npMax x)
  let exp_z := z.map Real.exp
  exp_z.map (fun e => e / (exp_z.sum + EPS))

/-- Accumulator loop of np.argmax: scan the remaining elements, keeping the
current best value and its index; a later element replaces the best only when
strictly greater, so the first occurrence of the maximum wins. -/
noncomputable def npArgmaxAux : List ℝ → ℝ → ℕ → ℕ → ℕ
  | [], _, best_i, _ => best_i
  | x :: xs, best, best_i, i =>
    if best < x then npArgmaxAux xs x i (i + 1) else npArgmaxAux xs best best_i (i + 1)

/-- Model of np.argmax: index of the first occurrence of the maximum element
(numpy documents first-occurrence tie-breaking). Returns 0 on the empty
vector (numpy raises there; unused by the claims). -/
noncomputable def npArgmax : List ℝ → ℕ
  | [] => 0
  | x :: xs => npArgmaxAux xs x 0 1

/-! ## JSON values

JSON-representable Python data: dict payloads of events and the contents of
the persisted qpf_weights.json file. Numbers are modelled as rationals. -/

/-- Inductive type of JSON values. -/
inductive JValue where
  | jnull : JValue
  | jbool (b : Bool) : JValue
  | jnum (q : ℚ) : JValue
  | jstr (s : String) : JValue
  | jarr (items : List JValue) : JValue
  | jobj (fields : List (String × JValue)) : JValue

/-- Dictionary lookup data[k] on a JSON object, as an Option (Python raises
KeyError when absent, which callers in the repository catch). -/
def jlookup (k : String) : JValue → Option JValue
  | .jobj fields => (fields.find? (fun p => p.1 == k)).map (fun p => p.2)
  | _ => none

/-- Conversion of a JSON value to a number, as attempted by np.array on a
leaf; anything that is not a number fails. -/
def asNum : JValue → Option ℚ
  | .jnum q => some q
  | _ => none

/-- Conversion of a JSON value to a numeric vector, modelling np.array(data)
for a one-dimensional numeric array; any other shape raises (returns none). -/
def asNumArr : JValue → Option (List ℚ)
  | .jarr items => items.mapM asNum
  | _ => none

/-- Conversion of a JSON value to a numeric matrix, modelling np.array(data)
for a two-dimensional numeric array. -/
def asNumMat : JValue → Option (List (List ℚ))
  | .jarr items => items.mapM asNumArr
  | _ => none

/-! ## main.py: persisted Field State -/

/-- Numeric arrays of the persisted Field State (the w, psi, W triple
returned by load_qpf_math_state in src/main.py). -/
structure QpfMathState where
  w : List ℚ
  psi : List (List ℚ)
  W : List (List ℚ)
deriving DecidableEq

/-- Observable state of the qpf_weights.json file for one user, at the
granularity load_qpf_math_state distinguishes: absent (os.path.exists is
false), existing but zero-size, existing but not valid JSON (json.load
raises), or parsed to a JSON value. -/
inductive QpfWeightsFile where
  | missing : QpfWeightsFile
  | emptyFile : QpfWeightsFile
  | unparsable : QpfWeightsFile
  | parsed (v : JValue) : QpfWeightsFile

/-- Freshly pseudo-randomly initialized state: w = np.random.randn(N),
psi = np.random.randn(N, D), W = np.random.randn(N, N). The pseudo-random
source is injected as a stream of draws, consumed in order. -/
def freshState (N D : ℕ) (rand : ℕ → ℚ) : QpfMathState :=
  { w := (List.range N).map rand
    psi := (List.range N).map (fun i => (List.range D).map (fun j => rand (N + i * D + j)))
    W := (List.range N).map (fun i => (List.range N).map (fun j => rand (N + N * D + i * N + j))) }

/-- Extraction of the three arrays from the parsed JSON, modelling
w = np.array(data["w"]); psi = np.array(data["psi"]); W = np.array(data["W"]).
A missing key (KeyError) or a non-numeric/ragged value (np.array failure)
makes the whole extraction fail, which the source catches. -/
def extractState (v : JValue) : Option QpfMathState :=
  match (jlookup "w" v).bind asNumArr, (jlookup "psi" v).bind asNumMat,
      (jlookup "W" v).bind asNumMat with
  | some w0, some psi0, some W0 => some ⟨w0, psi0, W0⟩
  | _, _, _ => none

/-- Model of load_qpf_math_state from src/main.py: if the file exists and is
nonempty, try json.load plus array extraction, falling back to a freshly
randomly initialized state on any exception; otherwise initialize freshly. -/
def load_qpf_math_state (file : QpfWeightsFile) (N D : ℕ) (rand : ℕ → ℚ) : QpfMathState :=
  match file with
  | .parsed v =>
    match extractState v with
    | some s => s
    | none => freshState N D rand
  | _ => freshState N D rand

/-! ## datetime and ISO-8601 timestamps

MemoryEvent timestamps are datetime.datetime values. save_json serializes
them with timestamp.isoformat() and load_json re-reads them with
dateutil.parser.isoparse. We model the datetime record, the exact string
produced by isoformat (as a list of ASCII codes), and a parser for that
format following isoparse. -/

/-- Model of datetime.datetime: calendar fields plus an optional fixed UTC
offset in whole minutes (none models a naive datetime, as produced by
datetime.utcnow in memory_graph.py). -/
structure DT where
  year : ℕ
  month : ℕ
  day : ℕ
  hour : ℕ
  minute : ℕ
  second : ℕ
  micro : ℕ
  tz : Option ℤ
deriving DecidableEq

/-- Field ranges enforced by the datetime constructor: these hold of every
datetime Python can build (offsets are strictly less than one day in
magnitude and whole minutes here). -/
def DT.Valid (d : DT) : Prop :=
  1 ≤ d.year ∧ d.year ≤ 9999 ∧ 1 ≤ d.month ∧ d.month ≤ 12 ∧ 1 ≤ d.day ∧ d.day ≤ 31 ∧
    d.hour ≤ 23 ∧ d.minute ≤ 59 ∧ d.second ≤ 59 ∧ d.micro ≤ 999999 ∧
    ∀ off ∈ d.tz, off.natAbs ≤ 1439

instance (d : DT) : Decidable d.Valid := by
  unfold DT.Valid
  exact inferInstance

/-- Comparison of datetimes, as Python compares them: lexicographically on
the field tuple (year, month, day, hour, minute, second, microsecond). -/
def dtLt (a b : DT) : Prop :=
  a.year < b.year ∨ (a.year = b.year ∧ (a.month < b.month ∨ (a.month = b.month ∧
    (a.day < b.day ∨ (a.day = b.day ∧ (a.hour < b.hour ∨ (a.hour = b.hour ∧
      (a.minute < b.minute ∨ (a.minute = b.minute ∧ (a.second < b.second ∨
        (a.second = b.second ∧ a.micro < b.micro)))))))))))

instance (a b : DT) : Decidable (dtLt a b) := by
  unfold dtLt
  exact inferInstance

/-- Fixed-width decimal rendering: the k ASCII digit codes of n printed with
leading zeros, most significant first (the %0kd fields of isoformat). -/
def digitsFix : ℕ → ℕ → List ℕ
  | 0, _ => []
  | k + 1, n => (48 + n / 10 ^ k) :: digitsFix k (n % 10 ^ k)

/-- Exact character sequence produced by datetime.isoformat():
YYYY-MM-DDTHH:MM:SS, then .ffffff exactly when microsecond is nonzero, then
+HH:MM or -HH:MM exactly when the datetime is timezone-aware. Characters are
ASCII codes (45 is the hyphen-minus, 84 is T, 58 is the colon, 46 is the
period, 43 is the plus sign). -/
def isoformat (d : DT) : List ℕ :=
  digitsFix 4 d.year ++ [45] ++ digitsFix 2 d.month ++ [45] ++ digitsFix 2 d.day ++
    [84] ++ digitsFix 2 d.hour ++ [58] ++ digitsFix 2 d.minute ++ [58] ++
    digitsFix 2 d.second ++
    (if d.micro = 0 then [] else 46 :: digitsFix 6 d.micro) ++
    (match d.tz with
     | none => []
     | some off =>
       (if off < 0 then 45 else 43) :: digitsFix 2 (off.natAbs / 60) ++ [58] ++
         digitsFix 2 (off.natAbs % 60))

/-- Consume exactly k ASCII digit characters, returning their value and the
rest of the input; fails on a non-digit or on running out of input. -/
def readDigits : ℕ → ℕ → List ℕ → Option (ℕ × List ℕ)
  | 0, acc, cs => some (acc, cs)
  | _ + 1, _, [] => none
  | k + 1, acc, c :: cs =>
    if 48 ≤ c ∧ c ≤ 57 then readDigits k (acc * 10 + (c - 48)) cs else none

/-- Consume one expected character. -/
def expectChar (ch : ℕ) : List ℕ → Option (List ℕ)
  | [] => none
  | c :: cs => if c = ch then some cs else none

/-- Optional fractional-seconds part: a period followed by exactly six
digits, or nothing (isoparse also accepts other precisions; isoformat only
ever emits six digits or none). -/
def parseFrac : List ℕ → Option (ℕ × List ℕ)
  | 46 :: rest => readDigits 6 0 rest
  | s => some (0, s)

/-- Optional UTC-offset suffix sHH:MM with sign s, or nothing (naive). -/
def parseTz : List ℕ → Option (Option ℤ)
  | [] => some none
  | 43 :: rest => do
    let (hh, s1) ← readDigits 2 0 rest
    let s2 ← expectChar 58 s1
    let (mm, s3) ← readDigits 2 0 s2
    if s3 = [] then some (some ((hh * 60 + mm : ℕ) : ℤ)) else none
  | 45 :: rest => do
    let (hh, s1) ← readDigits 2 0 rest
    let s2 ← expectChar 58 s1
    let (mm, s3) ← readDigits 2 0 s2
    if s3 = [] then some (some (-((hh * 60 + mm : ℕ) : ℤ))) else none
  | _ => none

/-- Parser for the strings isoformat produces, following
dateutil.parser.isoparse on this format: date, T, time, optional fraction,
optional offset. Returns none on malformed input (isoparse raises there). -/
def isoparse (s : List ℕ) : Option DT := do
  let (y, s1) ← readDigits 4 0 s
  let s2 ← expectChar 45 s1
  let (mo, s3) ← readDigits 2 0 s2
  let s4 ← expectChar 45 s3
  let (dy, s5) ← readDigits 2 0 s4
  let s6 ← expectChar 84 s5
  let (h, s7) ← readDigits 2 0 s6
  let s8 ← expectChar 58 s7
  let (mi, s9) ← readDigits 2 0 s8
  let s10 ← expectChar 58 s9
  let (sec, s11) ← readDigits 2 0 s10
  let (us, s12) ← parseFrac s11
  let tz ← parseTz s12
  some ⟨y, mo, dy, h, mi, sec, us, tz⟩

/-! ## memory_graph.py -/

/-- MemoryEvent from src/q_core_modules/memory_graph.py: id, timestamp,
type tag, and a JSON dict payload. -/
structure MemoryEvent where
  id : String
  timestamp : DT
  type : String
  payload : List (String × JValue)

/-- MemoryGraph from src/q_core_modules/memory_graph.py: a networkx DiGraph
whose nodes carry a MemoryEvent attribute and whose edges carry a relation
label. Modelled by the insertion-ordered node list (id, event) with unique
ids, and the insertion-ordered edge list (src, dst, relation) with unique
(src, dst) keys, matching the dict-of-dicts representation of DiGraph. -/
structure MemoryGraph where
  nodes : List (String × MemoryEvent)
  edges : List (String × String × String)

/-- The empty graph built by MemoryGraph.__init__. -/
def emptyGraph : MemoryGraph := ⟨[], []⟩

/-- Node ids in iteration order (list(self.graph.nodes)). -/
def nodeIds (g : MemoryGraph) : List String := g.nodes.map (fun p => p.1)

/-- networkx add_node(id, event=ev): update the attribute in place when the
node exists, otherwise append the node at the end. -/
def add_node (g : MemoryGraph) (nid : String) (ev : MemoryEvent) : MemoryGraph :=
  if nid ∈ nodeIds g then
    { g with nodes := g.nodes.map (fun p => if p.1 = nid then (nid, ev) else p) }
  else
    { g with nodes := g.nodes ++ [(nid, ev)] }

/-- networkx add_edge(src, dst, relation=r): a DiGraph stores at most one
edge per ordered pair, so an existing (src, dst) edge has its relation
attribute overwritten in place; otherwise the edge is appended. (networkx
would also auto-add missing endpoints, but every call site in the repository
checks both endpoints first.) -/
def add_edge (g : MemoryGraph) (src dst rel : String) : MemoryGraph :=
  if g.edges.any (fun e => e.1 = src ∧ e.2.1 = dst) then
    { g with edges := g.edges.map (fun e => if e.1 = src ∧ e.2.1 = dst then (src, dst, rel) else e) }
  else
    { g with edges := g.edges ++ [(src, dst, rel)] }

/-- Relation label of the (src, dst) edge, if present. -/
def lookupEdge (g : MemoryGraph) (src dst : String) : Option String :=
  (g.edges.find? (fun e => decide (e.1 = src) && decide (e.2.1 = dst))).map (fun e => e.2.2)

/-- MemoryGraph.link_events: create a labeled edge from src to dst when both
nodes exist, otherwise raise KeyError. The error path performs no mutation,
so the caller's graph is unchanged there. -/
def link_events (g : MemoryGraph) (src_id dst_id relation : String) :
    Except String MemoryGraph :=
  if src_id ∈ nodeIds g ∧ dst_id ∈ nodeIds g then
    .ok (add_edge g src_id dst_id relation)
  else
    .error ("Cannot link " ++ src_id ++ " → " ++ dst_id ++ ": node missing")

/-- Dictionary access self.graph.nodes[nid], yielding the stored event. -/
def lookupNode (g : MemoryGraph) (nid : String) : Option MemoryEvent :=
  (g.nodes.find? (fun p => p.1 == nid)).map (fun p => p.2)

/-- Stable insertion of x into a list, placing x before the first element y
with le x y. Folded over a list this computes the unique stable sort with
respect to a total preorder, which is what Python's list.sort (Timsort,
documented stable) computes. -/
def pyInsert (le : α → α → Bool) (x : α) : List α → List α
  | [] => [x]
  | y :: ys => if le x y then x :: y :: ys else y :: pyInsert le x ys

/-- Stable sort modelling Python's list.sort with comparator le. -/
def pySort (le : α → α → Bool) : List α → List α
  | [] => []
  | x :: xs => pyInsert le x (pySort le xs)

/-- First best element of a list: the element that a stable sort with
comparator le would put first (earlier elements win ties). -/
def pickFirst (le : α → α → Bool) : List α → Option α
  | [] => none
  | x :: xs =>
    match pickFirst le xs with
    | none => some x
    | some m => some (if le x m then x else m)

/-- Descending-by-timestamp comparator used by add_event:
prior.sort(key=timestamp, reverse=True) is the stable sort placing p before
q when q's timestamp is not greater than p's. -/
def tsDesc (p q : String × DT) : Bool := decide (¬ dtLt p.2 q.2)

/-- MemoryGraph.add_event: insert the node, then, when other nodes exist,
sort the prior (id, timestamp) pairs by timestamp descending (stable) and
link from the first one to the new node with relation next_in_time. The
link_events call cannot fail here (both endpoints were just checked into the
graph); the error arm returns the intermediate graph only to keep the
function total. -/
def add_event (g : MemoryGraph) (event : MemoryEvent) : MemoryGraph :=
  let g1 := add_node g event.id event
  let all_nodes := nodeIds g1
  if all_nodes.length > 1 then
    let prior := (all_nodes.filter (fun nid => nid ≠ event.id)).filterMap
      (fun nid => (lookupNode g1 nid).map (fun ev => (nid, ev.timestamp)))
    match (pySort tsDesc prior).head? with
    | some last => (link_events g1 last.1 event.id "next_in_time").toOption.getD g1
    | none => g1
  else g1

/-! ## memory_graph.py: JSON persistence (save_json / load_json)

save_json turns the graph into networkx node-link data, replaces each
MemoryEvent attribute by a dict with an isoformat timestamp, and
json.dump's the result; load_json json.load's it, rebuilds the DiGraph from
the node-link data, and rehydrates each event dict through isoparse.
json.dump and json.load are mutually inverse on JSON-representable data, so
the persisted form is modelled by the node-link structure itself. -/

/-- Serialized event dict written by save_json: the id, isoformat timestamp
string, type and payload of the event. -/
structure SerEvent where
  id : String
  timestamp : List ℕ
  type : String
  payload : List (String × JValue)

/-- networkx node-link data: the nodes in graph iteration order, each
carrying its serialized event attribute, and the links. -/
structure NodeLinkData where
  nodes : List (String × SerEvent)
  links : List (String × String × String)

/-- Edges in DiGraph iteration order: grouped by source node, sources in
node insertion order, multiple edges of one source in their own insertion
order. This is the order in which node_link_data emits links. -/
def edgeIter (g : MemoryGraph) : List (String × String × String) :=
  g.nodes.flatMap (fun p => g.edges.filter (fun e => decide (e.1 = p.1)))

/-- Event serialization inside save_json. -/
def serEvent (ev : MemoryEvent) : SerEvent :=
  ⟨ev.id, isoformat ev.timestamp, ev.type, ev.payload⟩

/-- MemoryGraph.save_json: node-link data with serialized event dicts. -/
def save_json (g : MemoryGraph) : NodeLinkData :=
  ⟨g.nodes.map (fun p => (p.1, serEvent p.2)), edgeIter g⟩

/-- Event rehydration inside load_json: rebuild the MemoryEvent from the
stored dict, parsing the timestamp with isoparse (none models the exception
isoparse raises on a malformed timestamp). -/
def deserEvent (se : SerEvent) : Option MemoryEvent :=
  (isoparse se.timestamp).map (fun ts => ⟨se.id, ts, se.type, se.payload⟩)

/-- MemoryGraph.load_json: rebuild the graph from node-link data. Nodes are
added in their listed order; links are then added in their listed order with
DiGraph add_edge semantics. -/
def load_json (data : NodeLinkData) : Option MemoryGraph := do
  let nodes ← data.nodes.mapM (fun p => (deserEvent p.2).map (fun ev => (p.1, ev)))
  some (data.links.foldl (fun g l => add_edge g l.1 l.2.1 l.2.2) ⟨nodes, []⟩)

/-! ## Graph well-formedness

Invariants of the MemoryGraph representation, maintained by the operations:
node ids are unique (nodes model a dict keyed by id), edge (src, dst) keys
are unique (DiGraph adjacency), and edges reference existing nodes. -/

/-- Edge keys are pairwise distinct. -/
def EdgeKeysNodup (edges : List (String × String × String)) : Prop :=
  edges.Pairwise (fun e1 e2 => ¬ (e1.1 = e2.1 ∧ e1.2.1 = e2.2.1))

/-- Every edge endpoint is a node of the graph. -/
def EdgesClosed (g : MemoryGraph) : Prop :=
  ∀ e ∈ g.edges, e.1 ∈ nodeIds g ∧ e.2.1 ∈ nodeIds g

/-- Full representation invariant of MemoryGraph. -/
def GraphWF (g : MemoryGraph) : Prop :=
  (nodeIds g).Nodup ∧ EdgeKeysNodup g.edges ∧ EdgesClosed g

/-! ## contextual_retriever.py -/

/-- Fallback rendering str(ev.payload) used when the payload has no string
under the text key. The exact Python repr of the dict does not matter to any
claim (the embedding function is quantified over), only that the rendering
is a deterministic function of the payload; we render the keys. -/
def pyStrPayload (payload : List (String × JValue)) : String :=
  String.intercalate ", " (payload.map (fun p => p.1))

/-- Text selected for an event by retrieve_semantic: the payload entry under
the text key when it is a string, else the payload rendering. -/
def eventText (ev : MemoryEvent) : String :=
  match jlookup "text" (.jobj ev.payload) with
  | some (.jstr s) => s
  | _ => pyStrPayload ev.payload

/-- Dot product v @ q of two vectors. -/
def dotProduct (v w : List ℝ) : ℝ := (List.zipWith (fun a b => a * b) v w).sum

/-- Euclidean norm np.linalg.norm of a vector. -/
noncomputable def l2norm (v : List ℝ) : ℝ := Real.sqrt ((v.map (fun a => a ^ 2)).sum)

/-- Cosine similarities of all candidate events against the query, in graph
iteration order: dot / (norm * norm), with np.divide(out=zeros, where=...)
yielding 0 instead of dividing when the norm product is 0. -/
noncomputable def simsOf (g : MemoryGraph) (embedder : String → List ℝ) (text : String) :
    List ℝ :=
  let query_vec := embedder text
  let events := g.nodes.map (fun p => p.2)
  let embeddings := (events.map eventText).map embedder
  embeddings.map (fun v =>
    let nm := l2norm v * l2norm query_vec
    if nm ≠ 0 then dotProduct v query_vec / nm else 0)

/-- Python slice arr[-k:]: the whole array when k = 0 (since -0 is 0), else
the last k elements (all of them when k exceeds the length). -/
def pyTail (k : ℕ) (l : List α) : List α :=
  if k = 0 then l else l.drop (l.length - k)

/-- Model of np.argsort: indices 0..n-1 sorted by their value ascending.
numpy's default introsort degenerates to a stable insertion sort at these
sizes; we model it as the stable ascending sort, which is deterministic and
keeps tied indices in ascending order. -/
noncomputable def argsortAsc (sims : List ℝ) : List ℕ :=
  pySort (fun i j => decide (sims.getD i 0 ≤ sims.getD j 0)) (List.range sims.length)

/-- Index selection of retrieve_semantic: np.argsort(sims)[-k:][::-1]. -/
noncomputable def retrieveIdx (sims : List ℝ) (k : ℕ) : List ℕ :=
  (pyTail k (argsortAsc sims)).reverse

/-- Fallback event used to state list indexing events[i] (never reached: the
selected indices always lie below the number of events). -/
def dummyEvent : MemoryEvent := ⟨"", ⟨1970, 1, 1, 0, 0, 0, 0, none⟩, "", []⟩

/-- ContextualRetriever.retrieve_semantic from
src/q_core_modules/contextual_retriever.py. On a graph with no events the
unpacking ids, events = zip(*[...]) raises ValueError, modelled as the error
result. Otherwise: embed the query and every event text, score by guarded
cosine similarity, and return [events[i] for i in np.argsort(sims)[-k:][::-1]].
The lru_cache decorator only memoizes and does not change the value of a
call, so it is not modelled. -/
noncomputable def retrieve_semantic (g : MemoryGraph) (embedder : String → List ℝ)
    (text : String) (k : ℕ) : Except String (List MemoryEvent) :=
  match g.nodes with
  | [] => .error "not enough values to unpack (expected 2, got 0)"
  | _ =>
    let events := g.nodes.map (fun p => p.2)
    let sims := simsOf g embedder text
    .ok ((retrieveIdx sims k).map (fun i => events.getD i dummyEvent))

/-- Sum of the exponentials of the max-shifted inputs: the denominator (minus
EPS) of softmax. -/
noncomputable def expSum (x : List ℝ) : ℝ :=
  ((x.map (fun xi => xi - npMax x)).map Real.exp).sum

/-- Constant embedder used in concrete retrieval scenarios: every text maps
to the vector [1], so every candidate ties at similarity 1. -/
noncomputable def constEmb : String → List ℝ := fun _ => [1]

/-- Similarity of the i-th candidate (in graph iteration order) for a
query, read off the simsOf vector. -/
noncomputable def simVal (g : MemoryGraph) (embedder : String → List ℝ) (text : String)
    (i : ℕ) : ℝ :=
  (simsOf g embedder text).getD i 0

/-! ## Concrete sample data

Small concrete events and graphs used to instantiate the theorems that carry
hypotheses. -/

/-- Sample timestamp. -/
def dtA : DT := ⟨2024, 1, 1, 0, 0, 0, 0, none⟩

/-- Sample timestamp one day after dtA. -/
def dtB : DT := ⟨2024, 1, 2, 0, 0, 0, 0, none⟩

/-- Sample event with id a. -/
def evA : MemoryEvent := ⟨"a", dtA, "user_input", []⟩

/-- Sample event with id b, one day after evA. -/
def evB : MemoryEvent := ⟨"b", dtB, "q_response", []⟩

/-- Sample event with id c, used as a freshly inserted event. -/
def evC : MemoryEvent := ⟨"c", dtB, "user_input", []⟩

/-- Sample two-node graph with no edges. -/
def gAB : MemoryGraph := ⟨[("a", evA), ("b", evB)], []⟩

/-- Sample two-node graph with one labeled edge from a to b. -/
def gABe : MemoryGraph := ⟨[("a", evA), ("b", evB)], [("a", "b", "causal")]⟩

/-- Sample timezone-aware timestamp with nonzero microseconds (+05:30). -/
def dtC : DT := ⟨2024, 5, 17, 13, 45, 30, 123456, some 330⟩

/-- Sample timezone-aware timestamp with a negative offset (-01:30). -/
def dtD : DT := ⟨2023, 12, 31, 23, 59, 59, 0, some (-90)⟩

/-- Sample event with a text payload and an aware timestamp. -/
def evP : MemoryEvent := ⟨"p", dtC, "user_input", [("text", .jstr "hello")]⟩

/-- Sample event with an empty payload and a negative-offset timestamp. -/
def evQ : MemoryEvent := ⟨"q", dtD, "q_response", []⟩

/-- Sample two-node graph with one next_in_time edge, used for the
persistence round-trip. -/
def gPQ : MemoryGraph := ⟨[("p", evP), ("q", evQ)], [("p", "q", "next_in_time")]⟩

/-- Sample well-formed contents of qpf_weights.json with N = 1, D = 1. -/
def sampleWeightsJson : JValue :=
  .jobj [("w", .jarr [.jnum 1]), ("psi", .jarr [.jarr [.jnum 2]]),
    ("W", .jarr [.jarr [.jnum 3]])]

/-! ## Helper lemmas -/

lemma sum_map_div (l : List ℝ) (c : ℝ) : (l.map (fun e => e / c)).sum = l.sum / c := by
  induction l with
  | nil => simp
  | cons x xs ih => simp [ih, add_div]

lemma foldl_max_cases (xs : List ℝ) : ∀ b : ℝ, xs.foldl max b = b ∨ xs.foldl max b ∈ xs := by
  induction xs with
  | nil => intro b; simp
  | cons x xs ih =>
    intro b
    have h := ih (max b x)
    rcases h with h | h
    · rcases max_choice b x with hm | hm
      · left; simpa [hm] using h
      · right; rw [List.foldl_cons, h, hm]; exact List.mem_cons_self x xs
    · right; exact List.mem_cons_of_mem x h

lemma npMax_mem (l : List ℝ) (h : l ≠ []) : npMax l ∈ l := by
  match l with
  | x :: xs =>
    rcases foldl_max_cases xs x with h1 | h1
    · rw [npMax, h1]; exact List.mem_cons_self x xs
    · rw [npMax]; exact List.mem_cons_of_mem x h1

lemma list_sum_nonpos (l : List ℝ) (h : ∀ t ∈ l, t ≤ 0) : l.sum ≤ 0 := by
  induction l with
  | nil => simp
  | cons x xs ih =>
    have hx := h x (List.mem_cons_self x xs)
    have hxs := ih (fun t ht => h t (List.mem_cons_of_mem x ht))
    simp only [List.sum_cons]
    linarith

lemma one_le_expSum (x : List ℝ) (hx : x ≠ []) : 1 ≤ expSum x := by
  obtain ⟨s, t, hst⟩ := List.append_of_mem (npMax_mem x hx)
  unfold expSum
  set m := npMax x with hm
  rw [hst]
  simp only [List.map_append, List.map_cons, List.sum_append, List.sum_cons, sub_self,
    Real.exp_zero]
  have hs : 0 ≤ ((s.map (fun xi => xi - npMax x)).map Real.exp).sum :=
    List.sum_nonneg (by
      intro u hu
      simp only [List.mem_map] at hu
      obtain ⟨v, _, hv⟩ := hu
      exact hv ▸ (Real.exp_pos v).le)
  have ht : 0 ≤ ((t.map (fun xi => xi - npMax x)).map Real.exp).sum :=
    List.sum_nonneg (by
      intro u hu
      simp only [List.mem_map] at hu
      obtain ⟨v, _, hv⟩ := hu
      exact hv ▸ (Real.exp_pos v).le)
  linarith

/-! ## Claim C2 -/

/-- C2: end-to-end numeric example with N = 3 and w = [0, 0, 0]:
activation gives [0.5, 0.5, 0.5]; the entropy of that activation lies in
(1.0397, 1.0398), matching the quoted -3 * (0.25 * ln 0.25) rounded to
1.0397; with S_crit = 1.0 check_collapse triggers; argmax over the all-equal
activations is 0 (lowest index on ties); and
collapse_weights [0,0,0] 0 0.5 = [0.5, 0, 0] exactly. -/
theorem c2_end_to_end_example :
    activation [0, 0, 0] = [1 / 2, 1 / 2, 1 / 2] ∧
    (1.0397 < entropy [1 / 2, 1 / 2, 1 / 2] ∧ entropy [1 / 2, 1 / 2, 1 / 2] < 1.0398) ∧
    check_collapse (entropy [1 / 2, 1 / 2, 1 / 2]) 1 ∧
    npArgmax [1 / 2, 1 / 2, 1 / 2] = 0 ∧
    collapse_weights [0, 0, 0] 0 (1 / 2) = [1 / 2, 0, 0] := by
  have hact : activation [0, 0, 0] = [1 / 2, 1 / 2, 1 / 2] := by
    norm_num [activation, Real.exp_zero]
  have hent : entropy [1 / 2, 1 / 2, 1 / 2] =
      -(3 / 4 * Real.log ((1 / 4 : ℝ) * (1 + 4 / 1000000000000))) := by
    unfold entropy EPS
    norm_num
    ring_nf
  have hlogmul : Real.log ((1 / 4 : ℝ) * (1 + 4 / 1000000000000)) =
      Real.log (1 / 4) + Real.log (1 + 4 / 1000000000000) :=
    Real.log_mul (by norm_num) (by norm_num)
  have hlog4 : Real.log (1 / 4 : ℝ) = -(2 * Real.log 2) := by
    rw [one_div, Real.log_inv, show (4 : ℝ) = 2 ^ 2 by norm_num, Real.log_pow]
    push_cast
    ring
  have hup : Real.log (1 + 4 / 1000000000000 : ℝ) ≤ 4 / 1000000000000 := by
    have h := Real.log_le_sub_one_of_pos (x := 1 + 4 / 1000000000000) (by norm_num)
    linarith
  have hlo : 0 ≤ Real.log (1 + 4 / 1000000000000 : ℝ) := Real.log_nonneg (by norm_num)
  have l2lo := Real.log_two_gt_d9
  have l2hi := Real.log_two_lt_d9
  have hS1 : 1.0397 < entropy [1 / 2, 1 / 2, 1 / 2] := by
    rw [hent, hlogmul, hlog4]
    norm_num at l2lo ⊢
    linarith
  have hS2 : entropy [1 / 2, 1 / 2, 1 / 2] < 1.0398 := by
    rw [hent, hlogmul, hlog4]
    norm_num at l2hi ⊢
    linarith
  refine ⟨hact, ⟨hS1, hS2⟩, ?_, ?_, ?_⟩
  · unfold check_collapse
    norm_num at hS1 ⊢
    linarith
  · norm_num [npArgmax, npArgmaxAux]
  · norm_num [collapse_weights, addAt]

/-! ## Claim C3 -/

/-- C3 counterexample: the components of softmax do not sum to exactly 1.
At the input [0] the only component is 1 / (1 + EPS), whose sum differs
from 1 because the implementation adds EPS = 1e-12 to the denominator. -/
theorem c3_counterexample_softmax_sum : (softmax [0]).sum ≠ 1 := by
  have h : (softmax [0]).sum = 1 / (1 + 1 / 1000000000000) := by
    norm_num [softmax, npMax, EPS, Real.exp_zero]
  rw [h]
  norm_num

/-- C3 amended: for every nonempty input vector x, the components of
softmax x sum to T / (T + EPS) where T is the sum of the shifted
exponentials; this sum is strictly below 1 and within EPS = 1e-12 of 1
(the subtracted maximum guarantees T is at least 1). -/
theorem c3_amended_softmax_sum (x : List ℝ) (hx : x ≠ []) :
    (softmax x).sum = expSum x / (expSum x + EPS) ∧
    1 - EPS < (softmax x).sum ∧ (softmax x).sum < 1 := by
  have hT : 1 ≤ expSum x := one_le_expSum x hx
  have hEPS : (0 : ℝ) < EPS := by norm_num [EPS]
  have hsum : (softmax x).sum = expSum x / (expSum x + EPS) := by
    unfold softmax expSum
    exact sum_map_div _ _
  refine ⟨hsum, ?_, ?_⟩
  · rw [hsum, lt_div_iff₀ (by linarith)]
    nlinarith
  · rw [hsum, div_lt_one (by linarith)]
    linarith

/-- C3 witness: the amended statement instantiated at the concrete input
[0]. -/
theorem c3_amended_softmax_sum_witness :
    (softmax [0]).sum = expSum [0] / (expSum [0] + EPS) ∧
    1 - EPS < (softmax [0]).sum ∧ (softmax [0]).sum < 1 :=
  c3_amended_softmax_sum [0] (by simp)

/-! ## Claim C4 -/

/-- C4 counterexample: entropy is not nonnegative on every real input
vector: at a = [2] the term log (4 + EPS) is positive, so the entropy
-(4 * log (4 + EPS)) is negative. -/
theorem c4_counterexample_entropy_neg : entropy [2] < 0 := by
  have hlog : 0 < Real.log ((2 : ℝ) ^ 2 + EPS) := Real.log_pos (by norm_num [EPS])
  unfold entropy
  simp only [List.map_cons, List.map_nil, List.sum_cons, List.sum_nil, add_zero]
  nlinarith

/-- C4 amended: entropy is defined (total) on every real vector, and it is
nonnegative whenever every component satisfies a_i^2 + EPS ≤ 1; the guard
EPS only protects against log 0, it does not make the entropy nonnegative
for components with a_i^2 + EPS above 1. -/
theorem c4_amended_entropy_nonneg (a : List ℝ) (h : ∀ t ∈ a, t ^ 2 + EPS ≤ 1) :
    0 ≤ entropy a := by
  unfold entropy
  rw [neg_nonneg]
  apply list_sum_nonpos
  intro u hu
  simp only [List.mem_map] at hu
  obtain ⟨v, hv, hvu⟩ := hu
  have hEPS : (0 : ℝ) < EPS := by norm_num [EPS]
  have h1 : Real.log (v ^ 2 + EPS) ≤ 0 :=
    Real.log_nonpos (by nlinarith [sq_nonneg v]) (h v hv)
  nlinarith [sq_nonneg v, hvu]

/-- C4 witness: the amended statement instantiated at the concrete input
[0]. -/
theorem c4_amended_entropy_nonneg_witness : 0 ≤ entropy [0] :=
  c4_amended_entropy_nonneg [0] (by
    intro t ht
    simp only [List.mem_singleton] at ht
    subst ht
    norm_num [EPS])

/-! ## Stable sort lemmas -/

lemma pyInsert_ne_nil (le : α → α → Bool) (x : α) (l : List α) : pyInsert le x l ≠ [] := by
  cases l with
  | nil => simp [pyInsert]
  | cons y ys =>
    simp only [pyInsert]
    split <;> simp

lemma pySort_eq_nil_iff (le : α → α → Bool) (l : List α) : pySort le l = [] ↔ l = [] := by
  cases l with
  | nil => simp [pySort]
  | cons x xs =>
    simp only [pySort]
    constructor
    · intro h
      exact absurd h (pyInsert_ne_nil le x (pySort le xs))
    · intro h
      exact absurd h (by simp)

lemma pickFirst_eq_none_iff (le : α → α → Bool) (l : List α) :
    pickFirst le l = none ↔ l = [] := by
  cases l with
  | nil => simp [pickFirst]
  | cons x xs =>
    simp only [pickFirst]
    constructor
    · intro h
      cases hx : pickFirst le xs with
      | none => rw [hx] at h; exact absurd h (by simp)
      | some m => rw [hx] at h; exact absurd h (by simp)
    · intro h
      exact absurd h (by simp)

lemma pySort_head (le : α → α → Bool) (l : List α) :
    (pySort le l).head? = pickFirst le l := by
  induction l with
  | nil => simp [pySort, pickFirst]
  | cons x xs ih =>
    simp only [pySort, pickFirst]
    cases hs : pySort le xs with
    | nil =>
      have hxs : xs = [] := (pySort_eq_nil_iff le xs).1 hs
      have hn : pickFirst le xs = none := by rw [hxs]; simp [pickFirst]
      rw [hn]
      simp [pyInsert]
    | cons m rest =>
      have hm : pickFirst le xs = some m := by
        rw [← ih, hs]
        simp
      rw [hm]
      simp only [pyInsert]
      split <;> simp_all

lemma pickFirst_split (le : α → α → Bool) :
    ∀ (l : List α) (c : α), pickFirst le l = some c →
      ∃ pre post, l = pre ++ c :: post ∧ ∀ y ∈ pre, le y c = false := by
  intro l
  induction l with
  | nil => intro c h; simp [pickFirst] at h
  | cons x xs ih =>
    intro c h
    simp only [pickFirst] at h
    cases hx : pickFirst le xs with
    | none =>
      rw [hx] at h
      simp only [Option.some.injEq] at h
      subst h
      exact ⟨[], xs, by simp, by simp⟩
    | some m =>
      rw [hx] at h
      simp only [Option.some.injEq] at h
      by_cases hle : le x m = true
      · rw [if_pos hle] at h
        subst h
        exact ⟨[], xs, by simp, by simp⟩
      · rw [if_neg hle] at h
        subst h
        obtain ⟨pre, post, hsplit, hpre⟩ := ih m hx
        refine ⟨x :: pre, post, by rw [hsplit]; simp, ?_⟩
        intro y hy
        rcases List.mem_cons.1 hy with hy | hy
        · subst hy
          exact Bool.eq_false_iff.2 hle
        · exact hpre y hy

lemma pickFirst_max (le : α → α → Bool)
    (hrefl : ∀ a, le a a = true)
    (htrans : ∀ a b c, le a b = true → le b c = true → le a c = true)
    (htot : ∀ a b, le a b = true ∨ le b a = true) :
    ∀ (l : List α) (c : α), pickFirst le l = some c → ∀ y ∈ l, le c y = true := by
  intro l
  induction l with
  | nil => intro c h; simp [pickFirst] at h
  | cons x xs ih =>
    intro c h y hy
    simp only [pickFirst] at h
    cases hx : pickFirst le xs with
    | none =>
      have hxs : xs = [] := (pickFirst_eq_none_iff le xs).1 hx
      rw [hx] at h
      simp only [Option.some.injEq] at h
      subst h
      subst hxs
      rcases List.mem_cons.1 hy with hy | hy
      · subst hy; exact hrefl y
      · simp at hy
    | some m =>
      rw [hx] at h
      simp only [Option.some.injEq] at h
      by_cases hle : le x m = true
      · rw [if_pos hle] at h
        subst h
        rcases List.mem_cons.1 hy with hy | hy
        · subst hy; exact hrefl y
        · exact htrans x m y hle (ih m hx y hy)
      · rw [if_neg hle] at h
        subst h
        rcases List.mem_cons.1 hy with hy | hy
        · subst hy
          rcases htot y m with ht | ht
          · exact absurd ht hle
          · exact ht
        · exact ih m hx y hy

/-! ## Order facts about datetime comparison -/

lemma tsDesc_refl (p : String × DT) : tsDesc p p = true := by
  simp only [tsDesc, decide_eq_true_eq]
  unfold dtLt
  omega

lemma tsDesc_trans (a b c : String × DT) (h1 : tsDesc a b = true) (h2 : tsDesc b c = true) :
    tsDesc a c = true := by
  simp only [tsDesc, decide_eq_true_eq] at h1 h2 ⊢
  unfold dtLt at h1 h2 ⊢
  omega

lemma tsDesc_total (a b : String × DT) : tsDesc a b = true ∨ tsDesc b a = true := by
  simp only [tsDesc, decide_eq_true_eq]
  unfold dtLt
  omega

/-! ## Graph helper lemmas -/

lemma add_node_fresh (g : MemoryGraph) (e : MemoryEvent) (h : e.id ∉ nodeIds g) :
    add_node g e.id e = ⟨g.nodes ++ [(e.id, e)], g.edges⟩ := by
  unfold add_node
  rw [if_neg h]

lemma add_edge_fresh (g : MemoryGraph) (src dst rel : String)
    (h : ∀ e ∈ g.edges, ¬ (e.1 = src ∧ e.2.1 = dst)) :
    add_edge g src dst rel = ⟨g.nodes, g.edges ++ [(src, dst, rel)]⟩ := by
  unfold add_edge
  rw [if_neg]
  intro hc
  simp only [List.any_eq_true, decide_eq_true_eq] at hc
  obtain ⟨ed, hed, hpair⟩ := hc
  exact h ed hed hpair

lemma lookup_prior (nodes : List (String × MemoryEvent))
    (hnd : (nodes.map (fun p => p.1)).Nodup) :
    (nodes.map (fun p => p.1)).filterMap
      (fun nid => (nodes.find? (fun p => p.1 == nid)).map
        (fun p => (nid, p.2.timestamp)))
    = nodes.map (fun p => (p.1, p.2.timestamp)) := by
  induction nodes with
  | nil => simp
  | cons a rest ih =>
    simp only [List.map_cons, List.nodup_cons] at hnd ⊢
    obtain ⟨ha, hrest⟩ := hnd
    simp only [List.filterMap_cons]
    have hfa : (((a :: rest).find? (fun p => p.1 == a.1)).map
        (fun p => (a.1, p.2.timestamp))) = some (a.1, a.2.timestamp) := by
      simp [List.find?_cons_of_pos]
    have hcong : (rest.map (fun p => p.1)).filterMap
        (fun nid => (((a :: rest).find? (fun p => p.1 == nid)).map
          (fun p => (nid, p.2.timestamp))))
        = (rest.map (fun p => p.1)).filterMap
        (fun nid => ((rest.find? (fun p => p.1 == nid)).map
          (fun p => (nid, p.2.timestamp)))) := by
      apply List.filterMap_congr
      intro nid hnid
      have hne : ¬ (a.1 == nid) = true := by
        simp only [beq_iff_eq]
        intro hEq
        exact ha (hEq ▸ hnid)
      have hstep : ((a :: rest).find? (fun p => p.1 == nid)) =
          rest.find? (fun p => p.1 == nid) := by
        rw [List.find?_cons_of_neg]
        exact hne
      rw [hstep]
    simp only at hfa
    rw [hfa]
    simp only at hcong
    rw [hcong, ih hrest]

/-! ## Claim C1 -/

/-- C1: temporal auto-linking of add_event. Adding an event to the empty
graph creates no edges. Adding a fresh event to a nonempty well-formed graph
appends the node and appends exactly one edge, labeled next_in_time, whose
source node c is maximal in timestamp among the pre-existing nodes and is
the earliest-inserted such node: every node inserted before c has a strictly
smaller timestamp, so a timestamp tie is resolved deterministically by
insertion order. -/
theorem c1_add_event_temporal_link :
    (∀ e, (add_event emptyGraph e).edges = []) ∧
    (∀ (g : MemoryGraph) (e : MemoryEvent), GraphWF g → g.nodes ≠ [] →
      e.id ∉ nodeIds g →
      ∃ c pre post,
        g.nodes = pre ++ c :: post ∧
        (∀ p ∈ g.nodes, ¬ dtLt c.2.timestamp p.2.timestamp) ∧
        (∀ p ∈ pre, dtLt p.2.timestamp c.2.timestamp) ∧
        (add_event g e).nodes = g.nodes ++ [(e.id, e)] ∧
        (add_event g e).edges = g.edges ++ [(c.1, e.id, "next_in_time")]) := by
  constructor
  · intro e
    simp [add_event, add_node, nodeIds, emptyGraph, link_events]
  · intro g e hWF hne hfresh
    obtain ⟨hnd, hkeys, hclosed⟩ := hWF
    have hg1 : add_node g e.id e = ⟨g.nodes ++ [(e.id, e)], g.edges⟩ :=
      add_node_fresh g e hfresh
    -- the prior list computed inside add_event is the (id, timestamp) image
    -- of the pre-existing nodes, in insertion order
    have hids : nodeIds (⟨g.nodes ++ [(e.id, e)], g.edges⟩ : MemoryGraph) =
        nodeIds g ++ [e.id] := by
      simp [nodeIds]
    have hfilter : (nodeIds g ++ [e.id]).filter (fun nid => nid ≠ e.id) = nodeIds g := by
      rw [List.filter_append]
      have h1 : (nodeIds g).filter (fun nid => nid ≠ e.id) = nodeIds g := by
        apply List.filter_eq_self.2
        intro a ha
        rw [decide_eq_true_eq]
        intro hEq
        exact hfresh (hEq ▸ ha)
      rw [h1]
      simp
    have hlook : ∀ nid ∈ nodeIds g,
        (lookupNode (⟨g.nodes ++ [(e.id, e)], g.edges⟩ : MemoryGraph) nid).map
          (fun ev => (nid, ev.timestamp)) =
        ((g.nodes.find? (fun p => p.1 == nid)).map (fun p => (nid, p.2.timestamp))) := by
      intro nid hnid
      have hsome : ∃ v, g.nodes.find? (fun p => p.1 == nid) = some v := by
        rw [← Option.isSome_iff_exists, List.find?_isSome]
        obtain ⟨p, hp, hp1⟩ := List.mem_map.1 hnid
        exact ⟨p, hp, by simp [hp1]⟩
      obtain ⟨v, hv⟩ := hsome
      unfold lookupNode
      simp only
      rw [List.find?_append, hv]
      simp [Option.map_map, Function.comp]
    have hprior : ((nodeIds g ++ [e.id]).filter (fun nid => nid ≠ e.id)).filterMap
        (fun nid => (lookupNode (⟨g.nodes ++ [(e.id, e)], g.edges⟩ : MemoryGraph) nid).map
          (fun ev => (nid, ev.timestamp))) =
        g.nodes.map (fun p => (p.1, p.2.timestamp)) := by
      rw [hfilter, List.filterMap_congr hlook]
      exact lookup_prior g.nodes hnd
    -- pick the linking source from the stable descending sort
    have hmapne : g.nodes.map (fun p => (p.1, p.2.timestamp)) ≠ [] := by
      intro hcon
      exact hne (List.map_eq_nil_iff.1 hcon)
    obtain ⟨c', hc'⟩ : ∃ c', pickFirst tsDesc (g.nodes.map (fun p => (p.1, p.2.timestamp)))
        = some c' := by
      cases hp : pickFirst tsDesc (g.nodes.map (fun p => (p.1, p.2.timestamp))) with
      | none => exact absurd ((pickFirst_eq_none_iff _ _).1 hp) hmapne
      | some c0 => exact ⟨c0, rfl⟩
    obtain ⟨pre1, post1, hsplit1, hpre1⟩ := pickFirst_split tsDesc _ c' hc'
    have hmax1 := pickFirst_max tsDesc tsDesc_refl tsDesc_trans tsDesc_total _ c' hc'
    obtain ⟨preN, restN, hnodes1, hmappre, hmaprest⟩ :=
      List.append_eq_map_iff.mp hsplit1.symm
    obtain ⟨c, postN, hrest1, hfc, hmappost⟩ := List.map_eq_cons_iff.mp hmaprest
    have hcg : c ∈ g.nodes := by
      rw [hnodes1, hrest1]
      exact List.mem_append_right _ (List.mem_cons_self c postN)
    -- evaluate add_event
    have hlen : (nodeIds g ++ [e.id]).length > 1 := by
      have h0 : nodeIds g ≠ [] := by
        intro hcon
        apply hne
        unfold nodeIds at hcon
        exact List.map_eq_nil_iff.1 hcon
      have h1 : 0 < (nodeIds g).length := List.length_pos.2 h0
      simp only [List.length_append, List.length_cons, List.length_nil]
      omega
    have hedge : add_edge (⟨g.nodes ++ [(e.id, e)], g.edges⟩ : MemoryGraph) c.1 e.id
        "next_in_time" =
        ⟨g.nodes ++ [(e.id, e)], g.edges ++ [(c.1, e.id, "next_in_time")]⟩ := by
      apply add_edge_fresh
      intro ed hed hcon
      obtain ⟨p2, hp2⟩ := hclosed ed hed
      exact hfresh (hcon.2 ▸ hp2)
    have hlink : link_events (⟨g.nodes ++ [(e.id, e)], g.edges⟩ : MemoryGraph) c.1 e.id
        "next_in_time" =
        .ok ⟨g.nodes ++ [(e.id, e)], g.edges ++ [(c.1, e.id, "next_in_time")]⟩ := by
      unfold link_events
      rw [if_pos, hedge]
      constructor
      · rw [hids]
        exact List.mem_append_left _ (List.mem_map.2 ⟨c, hcg, rfl⟩)
      · rw [hids]
        exact List.mem_append_right _ (List.mem_singleton.2 rfl)
    have hc1 : c'.1 = c.1 := by rw [← hfc]
    have hkey : add_event g e =
        ⟨g.nodes ++ [(e.id, e)], g.edges ++ [(c.1, e.id, "next_in_time")]⟩ := by
      simp only [add_event, hg1, hids]
      rw [if_pos hlen, hprior, pySort_head, hc']
      dsimp only
      rw [hc1, hlink]
      rfl
    refine ⟨c, preN, postN, by rw [hnodes1, hrest1], ?_, ?_, by rw [hkey], by rw [hkey]⟩
    · intro p hp
      have hmem : (fun q => (q.1, q.2.timestamp)) p ∈
          g.nodes.map (fun q => (q.1, q.2.timestamp)) := List.mem_map.2 ⟨p, hp, rfl⟩
      have h := hmax1 _ hmem
      simp only [tsDesc, decide_eq_true_eq] at h
      rw [← hfc] at h
      exact h
    · intro p hp
      have hmem : (fun q => (q.1, q.2.timestamp)) p ∈ pre1 := by
        rw [← hmappre]
        exact List.mem_map.2 ⟨p, hp, rfl⟩
      have h := hpre1 _ hmem
      simp only [tsDesc, decide_eq_false_iff_not, not_not] at h
      rw [← hfc] at h
      exact h

/-- C1 witness: the auto-linking statement instantiated at the concrete
two-node graph gAB and the fresh event evC. -/
theorem c1_add_event_temporal_link_witness :
    ∃ c pre post,
      gAB.nodes = pre ++ c :: post ∧
      (∀ p ∈ gAB.nodes, ¬ dtLt c.2.timestamp p.2.timestamp) ∧
      (∀ p ∈ pre, dtLt p.2.timestamp c.2.timestamp) ∧
      (add_event gAB evC).nodes = gAB.nodes ++ [(evC.id, evC)] ∧
      (add_event gAB evC).edges = gAB.edges ++ [(c.1, evC.id, "next_in_time")] :=
  c1_add_event_temporal_link.2 gAB evC
    (by constructor
        · decide
        · constructor
          · simp [gAB, EdgeKeysNodup]
          · intro e he
            simp [gAB] at he)
    (by simp [gAB])
    (by decide)

/-! ## add_edge and lookupEdge lemmas -/

lemma add_edge_nodes (g : MemoryGraph) (s d r : String) :
    (add_edge g s d r).nodes = g.nodes := by
  unfold add_edge
  split <;> rfl

lemma find_replaced (s d r : String) :
    ∀ edges : List (String × String × String),
      edges.any (fun e => e.1 = s ∧ e.2.1 = d) = true →
      (edges.map (fun e => if e.1 = s ∧ e.2.1 = d then (s, d, r) else e)).find?
          (fun e => decide (e.1 = s) && decide (e.2.1 = d)) = some (s, d, r) := by
  intro edges
  induction edges with
  | nil => intro h; simp at h
  | cons x xs ih =>
    intro h
    by_cases hx : x.1 = s ∧ x.2.1 = d
    · simp only [List.map_cons, if_pos hx]
      rw [List.find?_cons_of_pos]
      simp
    · simp only [List.map_cons, if_neg hx]
      have hx2 : ((fun e => decide (e.1 = s) && decide (e.2.1 = d)) x) = false := by
        simp only [Bool.and_eq_false_iff, decide_eq_false_iff_not]
        by_cases h1 : x.1 = s
        · exact Or.inr (fun h2 => hx ⟨h1, h2⟩)
        · exact Or.inl h1
      rw [List.find?_cons_of_neg]
      · apply ih
        simp only [List.any_cons, Bool.or_eq_true] at h
        rcases h with h | h
        · exact absurd (by simpa using h) hx
        · exact h
      · simp only [hx2]
        exact Bool.false_ne_true

lemma find_map_other (s d r s2 d2 : String) (h : ¬ (s2 = s ∧ d2 = d)) :
    ∀ edges : List (String × String × String),
      (edges.map (fun e => if e.1 = s ∧ e.2.1 = d then (s, d, r) else e)).find?
          (fun e => decide (e.1 = s2) && decide (e.2.1 = d2)) =
      edges.find? (fun e => decide (e.1 = s2) && decide (e.2.1 = d2)) := by
  intro edges
  induction edges with
  | nil => simp
  | cons x xs ih =>
    by_cases hx : x.1 = s ∧ x.2.1 = d
    · have hpx : ((fun e => decide (e.1 = s2) && decide (e.2.1 = d2)) x) = false := by
        simp only [Bool.and_eq_false_iff, decide_eq_false_iff_not]
        by_cases h1 : x.1 = s2
        · refine Or.inr (fun h2 => h ⟨?_, ?_⟩)
          · rw [← h1, hx.1]
          · rw [← h2, hx.2]
        · exact Or.inl h1
      have hpr : ((fun e => decide (e.1 = s2) && decide (e.2.1 = d2)) (s, d, r)) = false := by
        simp only [Bool.and_eq_false_iff, decide_eq_false_iff_not]
        by_cases h1 : s = s2
        · exact Or.inr (fun h2 => h ⟨h1.symm, h2.symm⟩)
        · exact Or.inl h1
      simp only [List.map_cons, if_pos hx]
      rw [List.find?_cons_of_neg, List.find?_cons_of_neg]
      · exact ih
      · simp [hpx]
      · simp [hpr]
    · simp only [List.map_cons, if_neg hx]
      by_cases hp : ((fun e => decide (e.1 = s2) && decide (e.2.1 = d2)) x) = true
      · have h1 : List.find? (fun e => decide (e.1 = s2) && decide (e.2.1 = d2))
            (x :: List.map (fun e => if e.1 = s ∧ e.2.1 = d then (s, d, r) else e) xs)
            = some x := by
          apply List.find?_cons_of_pos
          exact hp
        have h2 : List.find? (fun e => decide (e.1 = s2) && decide (e.2.1 = d2)) (x :: xs)
            = some x := by
          apply List.find?_cons_of_pos
          exact hp
        rw [h1, h2]
      · rw [List.find?_cons_of_neg, List.find?_cons_of_neg]
        · exact ih
        · exact hp
        · exact hp

lemma any_eq_false_forall (s d : String) (edges : List (String × String × String))
    (h : edges.any (fun e => e.1 = s ∧ e.2.1 = d) = false) :
    ∀ e ∈ edges, ¬ (e.1 = s ∧ e.2.1 = d) := by
  intro e he
  have := List.any_eq_false.1 h e he
  simpa using this

lemma lookupEdge_add_edge_self (g : MemoryGraph) (s d r : String) :
    lookupEdge (add_edge g s d r) s d = some r := by
  unfold add_edge lookupEdge
  by_cases hc : g.edges.any (fun e => e.1 = s ∧ e.2.1 = d) = true
  · rw [if_pos hc]
    simp only
    rw [find_replaced s d r g.edges hc]
    rfl
  · rw [if_neg hc]
    simp only
    rw [List.find?_append]
    have hnone : g.edges.find? (fun e => decide (e.1 = s) && decide (e.2.1 = d)) = none := by
      rw [List.find?_eq_none]
      intro e he
      have hfa := any_eq_false_forall s d g.edges (Bool.eq_false_iff.2 hc) e he
      simp only [Bool.and_eq_true, decide_eq_true_eq]
      exact fun hcon => hfa hcon
    rw [hnone]
    simp

lemma lookupEdge_add_edge_other (g : MemoryGraph) (s d r s2 d2 : String)
    (h : ¬ (s2 = s ∧ d2 = d)) :
    lookupEdge (add_edge g s d r) s2 d2 = lookupEdge g s2 d2 := by
  unfold add_edge lookupEdge
  by_cases hc : g.edges.any (fun e => e.1 = s ∧ e.2.1 = d) = true
  · rw [if_pos hc]
    simp only
    rw [find_map_other s d r s2 d2 h g.edges]
  · rw [if_neg hc]
    simp only
    rw [List.find?_append]
    cases hf : g.edges.find? (fun e => decide (e.1 = s2) && decide (e.2.1 = d2)) with
    | some v => simp
    | none =>
      have hsingle : ([(s, d, r)].find? (fun e => decide (e.1 = s2) && decide (e.2.1 = d2)))
          = none := by
        rw [List.find?_eq_none]
        intro e he
        simp only [List.mem_singleton] at he
        subst he
        simp only [Bool.and_eq_true, decide_eq_true_eq]
        exact fun hcon => h ⟨hcon.1.symm, hcon.2.symm⟩
      rw [hsingle]
      simp

/-! ## Claim C7 -/

/-- C7: link_events fails with the missing-node error exactly when one of
the endpoints is absent (the pure error result leaves the graph untouched);
when both endpoints exist it succeeds, keeps the nodes unchanged, stores the
given relation on the src-dst edge, and changes no other edge. -/
theorem c7_link_events_missing_node (g : MemoryGraph) (src dst rel : String) :
    ((link_events g src dst rel).isOk = true ↔ (src ∈ nodeIds g ∧ dst ∈ nodeIds g)) ∧
    (¬ (src ∈ nodeIds g ∧ dst ∈ nodeIds g) →
      link_events g src dst rel =
        .error ("Cannot link " ++ src ++ " → " ++ dst ++ ": node missing")) ∧
    (∀ g2, link_events g src dst rel = .ok g2 →
      g2.nodes = g.nodes ∧ lookupEdge g2 src dst = some rel ∧
      ∀ s2 d2, ¬ (s2 = src ∧ d2 = dst) → lookupEdge g2 s2 d2 = lookupEdge g s2 d2) := by
  refine ⟨?_, ?_, ?_⟩
  · unfold link_events
    by_cases hmem : src ∈ nodeIds g ∧ dst ∈ nodeIds g
    · rw [if_pos hmem]
      simpa [Except.isOk, Except.toBool] using hmem
    · rw [if_neg hmem]
      simpa [Except.isOk, Except.toBool] using hmem
  · intro hmem
    unfold link_events
    rw [if_neg hmem]
  · intro g2 hok
    unfold link_events at hok
    by_cases hmem : src ∈ nodeIds g ∧ dst ∈ nodeIds g
    · rw [if_pos hmem] at hok
      have hg2 : g2 = add_edge g src dst rel := by
        cases hok
        rfl
      subst hg2
      exact ⟨add_edge_nodes g src dst rel, lookupEdge_add_edge_self g src dst rel,
        fun s2 d2 h2 => lookupEdge_add_edge_other g src dst rel s2 d2 h2⟩
    · rw [if_neg hmem] at hok
      cases hok

/-- C7 witness: the link_events characterization instantiated at the
concrete graph gAB with an absent destination node, whose error branch and
success branch are both exercised through the iff. -/
theorem c7_link_events_missing_node_witness :
    ((link_events gAB "a" "zzz" "causal").isOk = true ↔
      ("a" ∈ nodeIds gAB ∧ "zzz" ∈ nodeIds gAB)) ∧
    (¬ ("a" ∈ nodeIds gAB ∧ "zzz" ∈ nodeIds gAB) →
      link_events gAB "a" "zzz" "causal" =
        .error ("Cannot link " ++ "a" ++ " → " ++ "zzz" ++ ": node missing")) ∧
    (∀ g2, link_events gAB "a" "zzz" "causal" = .ok g2 →
      g2.nodes = gAB.nodes ∧ lookupEdge g2 "a" "zzz" = some "causal" ∧
      ∀ s2 d2, ¬ (s2 = "a" ∧ d2 = "zzz") → lookupEdge g2 s2 d2 = lookupEdge gAB s2 d2) :=
  c7_link_events_missing_node gAB "a" "zzz" "causal"

lemma lookupEdge_some_any (g : MemoryGraph) (s d r1 : String)
    (h : lookupEdge g s d = some r1) :
    g.edges.any (fun e => e.1 = s ∧ e.2.1 = d) = true := by
  unfold lookupEdge at h
  cases hf : g.edges.find? (fun e => decide (e.1 = s) && decide (e.2.1 = d)) with
  | none => rw [hf] at h; simp at h
  | some v =>
    have hv := List.find?_some hf
    have hmem := List.mem_of_find?_eq_some hf
    rw [List.any_eq_true]
    refine ⟨v, hmem, ?_⟩
    simp only [Bool.and_eq_true, decide_eq_true_eq] at hv
    simp only [decide_eq_true_eq]
    exact hv

lemma add_edge_keys_nodup (g : MemoryGraph) (s d r : String)
    (h : EdgeKeysNodup g.edges) : EdgeKeysNodup (add_edge g s d r).edges := by
  unfold add_edge
  by_cases hc : g.edges.any (fun e => e.1 = s ∧ e.2.1 = d) = true
  · rw [if_pos hc]
    unfold EdgeKeysNodup at h ⊢
    simp only
    rw [List.pairwise_map]
    apply h.imp
    intro a b hab hcon
    apply hab
    have hkey : ∀ e : String × String × String,
        (if e.1 = s ∧ e.2.1 = d then (s, d, r) else e).1 = e.1 ∧
        (if e.1 = s ∧ e.2.1 = d then (s, d, r) else e).2.1 = e.2.1 := by
      intro e
      by_cases he : e.1 = s ∧ e.2.1 = d
      · rw [if_pos he]
        exact ⟨he.1.symm, he.2.symm⟩
      · rw [if_neg he]
        exact ⟨rfl, rfl⟩
    obtain ⟨ha1, ha2⟩ := hkey a
    obtain ⟨hb1, hb2⟩ := hkey b
    exact ⟨by rw [← ha1, ← hb1, hcon.1], by rw [← ha2, ← hb2, hcon.2]⟩
  · rw [if_neg hc]
    unfold EdgeKeysNodup at h ⊢
    simp only
    rw [List.pairwise_append]
    refine ⟨h, by simp, ?_⟩
    intro a ha b hb
    simp only [List.mem_singleton] at hb
    subst hb
    have := any_eq_false_forall s d g.edges (Bool.eq_false_iff.2 hc) a ha
    exact fun hcon => this ⟨hcon.1, hcon.2⟩

/-! ## Claim C10 -/

/-- C10: a DiGraph stores at most one edge per ordered node pair. Calling
link_events on an already-linked pair succeeds and replaces the relation
label in place: the nodes are unchanged, the edge count is unchanged, the
src-dst edge now carries the new relation, every other edge is untouched,
and the one-edge-per-pair invariant is preserved. -/
theorem c10_edge_label_replacement (g : MemoryGraph) (s d r1 r2 : String)
    (hWF : EdgeKeysNodup g.edges) (hs : s ∈ nodeIds g) (hd : d ∈ nodeIds g)
    (hr1 : lookupEdge g s d = some r1) :
    ∃ g2, link_events g s d r2 = .ok g2 ∧
      g2.nodes = g.nodes ∧
      g2.edges.length = g.edges.length ∧
      lookupEdge g2 s d = some r2 ∧
      (∀ s2 d2, ¬ (s2 = s ∧ d2 = d) → lookupEdge g2 s2 d2 = lookupEdge g s2 d2) ∧
      EdgeKeysNodup g2.edges := by
  refine ⟨add_edge g s d r2, ?_, add_edge_nodes g s d r2, ?_,
    lookupEdge_add_edge_self g s d r2,
    fun s2 d2 h2 => lookupEdge_add_edge_other g s d r2 s2 d2 h2,
    add_edge_keys_nodup g s d r2 hWF⟩
  · unfold link_events
    rw [if_pos ⟨hs, hd⟩]
  · unfold add_edge
    rw [if_pos (lookupEdge_some_any g s d r1 hr1)]
    simp

/-- C10 witness: the replacement statement instantiated at the concrete
graph gABe, overwriting the causal label of the a-b edge. -/
theorem c10_edge_label_replacement_witness :
    ∃ g2, link_events gABe "a" "b" "next_in_time" = .ok g2 ∧
      g2.nodes = gABe.nodes ∧
      g2.edges.length = gABe.edges.length ∧
      lookupEdge g2 "a" "b" = some "next_in_time" ∧
      (∀ s2 d2, ¬ (s2 = "a" ∧ d2 = "b") → lookupEdge g2 s2 d2 = lookupEdge gABe s2 d2) ∧
      EdgeKeysNodup g2.edges :=
  c10_edge_label_replacement gABe "a" "b" "causal" "next_in_time"
    (by unfold EdgeKeysNodup gABe; simp) (by decide) (by decide) (by decide)

/-! ## Claim C8 -/

/-- C8: loading the persisted Field State never fails. When the weights file
is missing, empty, unparsable, or parses to JSON from which the three arrays
cannot be extracted, load_qpf_math_state returns the freshly pseudo-randomly
initialized state, whose arrays have the right shapes (w of length N, psi of
shape N x D, W of shape N x N); when the file is well-formed it returns
exactly the stored arrays. -/
theorem c8_load_state_fallback (file : QpfWeightsFile) (N D : ℕ) (rand : ℕ → ℚ) :
    ((file = .missing ∨ file = .emptyFile ∨ file = .unparsable ∨
        (∃ v, file = .parsed v ∧ extractState v = none)) →
      load_qpf_math_state file N D rand = freshState N D rand ∧
      (load_qpf_math_state file N D rand).w.length = N ∧
      (load_qpf_math_state file N D rand).psi.length = N ∧
      (∀ row ∈ (load_qpf_math_state file N D rand).psi, row.length = D) ∧
      (load_qpf_math_state file N D rand).W.length = N ∧
      (∀ row ∈ (load_qpf_math_state file N D rand).W, row.length = N)) ∧
    (∀ v s, file = .parsed v → extractState v = some s →
      load_qpf_math_state file N D rand = s) := by
  have hshape : (freshState N D rand).w.length = N ∧
      (freshState N D rand).psi.length = N ∧
      (∀ row ∈ (freshState N D rand).psi, row.length = D) ∧
      (freshState N D rand).W.length = N ∧
      (∀ row ∈ (freshState N D rand).W, row.length = N) := by
    refine ⟨by simp [freshState], by simp [freshState], ?_, by simp [freshState], ?_⟩
    · intro row hrow
      simp only [freshState, List.mem_map] at hrow
      obtain ⟨i, _, hi⟩ := hrow
      rw [← hi]
      simp
    · intro row hrow
      simp only [freshState, List.mem_map] at hrow
      obtain ⟨i, _, hi⟩ := hrow
      rw [← hi]
      simp
  constructor
  · intro hbad
    have hfresh : load_qpf_math_state file N D rand = freshState N D rand := by
      rcases hbad with h | h | h | ⟨v, hv, hex⟩
      · rw [h]; rfl
      · rw [h]; rfl
      · rw [h]; rfl
      · rw [hv]
        unfold load_qpf_math_state
        dsimp only
        rw [hex]
    rw [hfresh]
    exact ⟨rfl, hshape⟩
  · intro v s hv hex
    rw [hv]
    unfold load_qpf_math_state
    dsimp only
    rw [hex]

/-- C8 witness: the characterization instantiated at a concrete well-formed
file with N = D = 1, yielding exactly the stored arrays. -/
theorem c8_load_state_fallback_witness :
    load_qpf_math_state (.parsed sampleWeightsJson) 1 1 (fun _ => 0) =
      ⟨[1], [[2]], [[3]]⟩ :=
  (c8_load_state_fallback (.parsed sampleWeightsJson) 1 1 (fun _ => 0)).2
    sampleWeightsJson ⟨[1], [[2]], [[3]]⟩ rfl (by rfl)

/-! ## Claim C9 -/

/-- C9: on a graph containing no events, retrieve_semantic fails for every
query and every k: the unpacking ids, events = zip(*[...]) raises ValueError
on the empty candidate list, rather than returning an empty result. -/
theorem c9_retrieve_semantic_empty_graph (g : MemoryGraph) (embedder : String → List ℝ)
    (text : String) (k : ℕ) (h : g.nodes = []) :
    retrieve_semantic g embedder text k =
      .error "not enough values to unpack (expected 2, got 0)" := by
  unfold retrieve_semantic
  rw [h]

/-- C9 witness: the empty-graph failure instantiated at the empty graph with
a concrete embedder, query and k. -/
theorem c9_retrieve_semantic_empty_graph_witness :
    retrieve_semantic emptyGraph (fun _ => [1]) "query" 3 =
      .error "not enough values to unpack (expected 2, got 0)" :=
  c9_retrieve_semantic_empty_graph emptyGraph (fun _ => [1]) "query" 3 rfl

/-! ## ISO-8601 round-trip lemmas -/

lemma readDigits_digitsFix : ∀ (k n acc : ℕ) (rest : List ℕ), n < 10 ^ k →
    readDigits k acc (digitsFix k n ++ rest) = some (acc * 10 ^ k + n, rest) := by
  intro k
  induction k with
  | zero =>
    intro n acc rest hn
    have hn0 : n = 0 := by
      have : n < 1 := by simpa using hn
      omega
    simp [digitsFix, readDigits, hn0]
  | succ k ih =>
    intro n acc rest hn
    have h10 : 0 < 10 ^ k := pow_pos (by norm_num) k
    obtain ⟨q, hqdef⟩ : ∃ q, n / 10 ^ k = q := ⟨_, rfl⟩
    obtain ⟨m, hmdef⟩ : ∃ m, n % 10 ^ k = m := ⟨_, rfl⟩
    have hq : q < 10 := by
      rw [← hqdef, Nat.div_lt_iff_lt_mul h10]
      calc n < 10 ^ (k + 1) := hn
        _ = 10 * 10 ^ k := by rw [pow_succ]; ring
    have hm : m < 10 ^ k := by rw [← hmdef]; exact Nat.mod_lt _ h10
    have hnm : 10 ^ k * q + m = n := by
      rw [← hqdef, ← hmdef]
      exact Nat.div_add_mod n (10 ^ k)
    simp only [digitsFix, hqdef, hmdef, List.cons_append, List.append_eq, readDigits]
    rw [if_pos (by omega)]
    have h48 : acc * 10 + (48 + q - 48) = acc * 10 + q := by omega
    rw [h48, ih m (acc * 10 + q) rest hm]
    have key : (acc * 10 + q) * 10 ^ k + m = acc * 10 ^ (k + 1) + n := by
      rw [← hnm, pow_succ]
      ring
    rw [key]

lemma expectChar_cons (c : ℕ) (rest : List ℕ) : expectChar c (c :: rest) = some rest := by
  simp [expectChar]

lemma parseFrac_roundtrip (micro : ℕ) (hm : micro < 10 ^ 6) (tzrest : List ℕ)
    (htz : tzrest = [] ∨ ∃ t, tzrest = 43 :: t ∨ tzrest = 45 :: t) :
    parseFrac ((if micro = 0 then [] else 46 :: digitsFix 6 micro) ++ tzrest) =
      some (micro, tzrest) := by
  by_cases h0 : micro = 0
  · rw [if_pos h0, List.nil_append, h0]
    rcases htz with h | ⟨t, h | h⟩ <;> rw [h] <;> rfl
  · rw [if_neg h0, List.cons_append]
    show readDigits 6 0 (digitsFix 6 micro ++ tzrest) = some (micro, tzrest)
    rw [readDigits_digitsFix 6 micro 0 tzrest hm]
    simp

lemma parseTz_empty : parseTz [] = some none := rfl

lemma parseTz_ifcons (off : ℤ) (habs : off.natAbs ≤ 1439) :
    parseTz ((if off < 0 then 45 else 43) ::
      (digitsFix 2 (off.natAbs / 60) ++ 58 :: digitsFix 2 (off.natAbs % 60))) =
      some (some off) := by
  have hh2 : off.natAbs / 60 < 10 ^ 2 := by omega
  have hmm2 : off.natAbs % 60 < 10 ^ 2 := by omega
  have hfix : digitsFix 2 (off.natAbs % 60) = digitsFix 2 (off.natAbs % 60) ++ [] :=
    (List.append_nil _).symm
  have hdm : off.natAbs / 60 * 60 + off.natAbs % 60 = off.natAbs := by omega
  by_cases hneg : off < 0
  · rw [if_pos hneg]
    simp only [parseTz]
    rw [readDigits_digitsFix 2 (off.natAbs / 60) 0 _ hh2]
    simp only [Option.bind_eq_bind, Option.some_bind, Nat.zero_mul, Nat.zero_add]
    rw [expectChar_cons]
    simp only [Option.some_bind]
    rw [hfix, readDigits_digitsFix 2 (off.natAbs % 60) 0 [] hmm2]
    simp only [Option.some_bind, Nat.zero_mul, Nat.zero_add]
    rw [if_pos trivial, hdm]
    have hoff : -((off.natAbs : ℤ)) = off := by omega
    rw [hoff]
  · rw [if_neg hneg]
    simp only [parseTz]
    rw [readDigits_digitsFix 2 (off.natAbs / 60) 0 _ hh2]
    simp only [Option.bind_eq_bind, Option.some_bind, Nat.zero_mul, Nat.zero_add]
    rw [expectChar_cons]
    simp only [Option.some_bind]
    rw [hfix, readDigits_digitsFix 2 (off.natAbs % 60) 0 [] hmm2]
    simp only [Option.some_bind, Nat.zero_mul, Nat.zero_add]
    rw [if_pos trivial, hdm]
    have hoff : ((off.natAbs : ℤ)) = off := by omega
    rw [hoff]

lemma isoparse_main (y mo dy hr mi sec us : ℕ) (tzs : List ℕ) (tz : Option ℤ)
    (hy : y < 10 ^ 4) (hmo : mo < 10 ^ 2) (hdy : dy < 10 ^ 2) (hhr : hr < 10 ^ 2)
    (hmi : mi < 10 ^ 2) (hsec : sec < 10 ^ 2) (hus : us < 10 ^ 6)
    (hshape : tzs = [] ∨ ∃ t, tzs = 43 :: t ∨ tzs = 45 :: t)
    (hparse : parseTz tzs = some tz) :
    isoparse (digitsFix 4 y ++ 45 :: (digitsFix 2 mo ++ 45 :: (digitsFix 2 dy ++
      84 :: (digitsFix 2 hr ++ 58 :: (digitsFix 2 mi ++ 58 :: (digitsFix 2 sec ++
      ((if us = 0 then [] else 46 :: digitsFix 6 us) ++ tzs))))))) =
      some ⟨y, mo, dy, hr, mi, sec, us, tz⟩ := by
  unfold isoparse
  rw [readDigits_digitsFix 4 y 0 _ hy]
  simp only [Option.bind_eq_bind, Option.some_bind, Nat.zero_mul, Nat.zero_add]
  rw [expectChar_cons]
  simp only [Option.some_bind]
  rw [readDigits_digitsFix 2 mo 0 _ hmo]
  simp only [Option.some_bind, Nat.zero_mul, Nat.zero_add]
  rw [expectChar_cons]
  simp only [Option.some_bind]
  rw [readDigits_digitsFix 2 dy 0 _ hdy]
  simp only [Option.some_bind, Nat.zero_mul, Nat.zero_add]
  rw [expectChar_cons]
  simp only [Option.some_bind]
  rw [readDigits_digitsFix 2 hr 0 _ hhr]
  simp only [Option.some_bind, Nat.zero_mul, Nat.zero_add]
  rw [expectChar_cons]
  simp only [Option.some_bind]
  rw [readDigits_digitsFix 2 mi 0 _ hmi]
  simp only [Option.some_bind, Nat.zero_mul, Nat.zero_add]
  rw [expectChar_cons]
  simp only [Option.some_bind]
  rw [readDigits_digitsFix 2 sec 0 _ hsec]
  simp only [Option.some_bind, Nat.zero_mul, Nat.zero_add]
  rw [parseFrac_roundtrip us hus tzs hshape]
  simp only [Option.some_bind]
  rw [hparse]
  rfl

/-- Round trip of the timestamp serialization: parsing the exact isoformat
output of a valid datetime recovers the datetime, including the microsecond
field and the timezone offset. -/
lemma isoparse_isoformat (d : DT) (hd : d.Valid) : isoparse (isoformat d) = some d := by
  obtain ⟨h1, h2, h3, h4, h5, h6, h7, h8, h9, h10, h11⟩ := hd
  have hy : d.year < 10 ^ 4 := by omega
  have hmo : d.month < 10 ^ 2 := by omega
  have hdy : d.day < 10 ^ 2 := by omega
  have hhr : d.hour < 10 ^ 2 := by omega
  have hmi : d.minute < 10 ^ 2 := by omega
  have hsec : d.second < 10 ^ 2 := by omega
  have hus : d.micro < 10 ^ 6 := by omega
  unfold isoformat
  rcases ho : d.tz with _ | off
  · simp only [List.append_assoc, List.cons_append, List.singleton_append, List.nil_append,
      List.append_eq]
    rw [isoparse_main d.year d.month d.day d.hour d.minute d.second d.micro [] none
      hy hmo hdy hhr hmi hsec hus (Or.inl rfl) parseTz_empty]
    rw [← ho]
  · have habs : off.natAbs ≤ 1439 := h11 off (by rw [ho]; exact Option.mem_def.2 rfl)
    dsimp only
    simp only [List.append_assoc, List.cons_append, List.singleton_append, List.nil_append,
      List.append_eq]
    have hshape : ((if off < 0 then 45 else 43) ::
        (digitsFix 2 (off.natAbs / 60) ++ 58 :: digitsFix 2 (off.natAbs % 60))) = [] ∨
        ∃ t, ((if off < 0 then 45 else 43) ::
          (digitsFix 2 (off.natAbs / 60) ++ 58 :: digitsFix 2 (off.natAbs % 60))) = 43 :: t ∨
        ((if off < 0 then 45 else 43) ::
          (digitsFix 2 (off.natAbs / 60) ++ 58 :: digitsFix 2 (off.natAbs % 60))) = 45 :: t := by
      by_cases hneg : off < 0
      · rw [if_pos hneg]
        exact Or.inr ⟨_, Or.inr rfl⟩
      · rw [if_neg hneg]
        exact Or.inr ⟨_, Or.inl rfl⟩
    rw [isoparse_main d.year d.month d.day d.hour d.minute d.second d.micro _ (some off)
      hy hmo hdy hhr hmi hsec hus hshape (parseTz_ifcons off habs)]
    rw [← ho]

/-! ## Graph persistence round-trip lemmas -/

lemma deser_ser (ev : MemoryEvent) (h : ev.timestamp.Valid) :
    deserEvent (serEvent ev) = some ev := by
  unfold deserEvent serEvent
  simp only
  rw [isoparse_isoformat ev.timestamp h]
  rfl

lemma mapM_roundtrip (nodes : List (String × MemoryEvent))
    (h : ∀ p ∈ nodes, p.2.timestamp.Valid) :
    (nodes.map (fun p => (p.1, serEvent p.2))).mapM
      (fun p => (deserEvent p.2).map (fun ev => (p.1, ev))) = some nodes := by
  induction nodes with
  | nil => rfl
  | cons a rest ih =>
    simp only [List.map_cons, List.mapM_cons]
    rw [deser_ser a.2 (h a (List.mem_cons_self a rest))]
    simp only [Option.map_some', Option.some_bind,
      ih (fun p hp => h p (List.mem_cons_of_mem a hp))]
    rfl

lemma foldl_add_edge : ∀ (links E : List (String × String × String))
    (nodes : List (String × MemoryEvent)),
    EdgeKeysNodup (E ++ links) →
    links.foldl (fun g l => add_edge g l.1 l.2.1 l.2.2) ⟨nodes, E⟩ = ⟨nodes, E ++ links⟩ := by
  intro links
  induction links with
  | nil =>
    intro E nodes h
    simp
  | cons l rest ih =>
    intro E nodes h
    simp only [List.foldl_cons]
    have hfresh : ∀ ed ∈ E, ¬ (ed.1 = l.1 ∧ ed.2.1 = l.2.1) := by
      intro ed hed
      unfold EdgeKeysNodup at h
      rw [List.pairwise_append] at h
      exact h.2.2 ed hed l (List.mem_cons_self l rest)
    have hstep : add_edge ⟨nodes, E⟩ l.1 l.2.1 l.2.2 = ⟨nodes, E ++ [l]⟩ := by
      have hae := add_edge_fresh ⟨nodes, E⟩ l.1 l.2.1 l.2.2 hfresh
      simpa using hae
    rw [hstep]
    have h2 : EdgeKeysNodup ((E ++ [l]) ++ rest) := by
      unfold EdgeKeysNodup at h ⊢
      have hassoc : (E ++ [l]) ++ rest = E ++ l :: rest := by simp
      rw [hassoc]
      exact h
    rw [ih (E ++ [l]) nodes h2]
    simp

lemma edgeIter_mem (g : MemoryGraph) (hclosed : EdgesClosed g) (e : String × String × String) :
    e ∈ edgeIter g ↔ e ∈ g.edges := by
  unfold edgeIter
  rw [List.mem_flatMap]
  constructor
  · rintro ⟨p, hp, he⟩
    exact (List.mem_filter.1 he).1
  · intro he
    obtain ⟨h1, _⟩ := hclosed e he
    obtain ⟨p, hp, hp1⟩ := List.mem_map.1 h1
    refine ⟨p, hp, List.mem_filter.2 ⟨he, ?_⟩⟩
    simp only [decide_eq_true_eq]
    exact hp1.symm

lemma edgeIter_keys_nodup (g : MemoryGraph) (hnd : (nodeIds g).Nodup)
    (hkeys : EdgeKeysNodup g.edges) : EdgeKeysNodup (edgeIter g) := by
  unfold edgeIter EdgeKeysNodup
  rw [List.pairwise_flatMap]
  constructor
  · intro p hp
    unfold EdgeKeysNodup at hkeys
    exact hkeys.sublist (List.filter_sublist _)
  · have hnodes : g.nodes.Pairwise (fun p q => p.1 ≠ q.1) := by
      unfold nodeIds at hnd
      exact (List.pairwise_map.1 hnd)
    apply hnodes.imp
    intro p q hpq x hx y hy
    have hxp : x.1 = p.1 := by
      have := (List.mem_filter.1 hx).2
      simp only [decide_eq_true_eq] at this
      exact this
    have hyq : y.1 = q.1 := by
      have := (List.mem_filter.1 hy).2
      simp only [decide_eq_true_eq] at this
      exact this
    intro hcon
    exact hpq (by rw [← hxp, ← hyq, hcon.1])

/-! ## Claim C5 -/

/-- C5: persistence round-trip. For every well-formed graph whose timestamps
are valid datetimes, loading the saved JSON form succeeds and yields a graph
with the identical node list (same ids, same events: payload contents and
types, and timestamps restored to the same instant including the timezone
offset) and exactly the same labeled edge set (reordered into DiGraph
iteration order, still one edge per ordered pair). -/
theorem c5_persistence_roundtrip (g : MemoryGraph) (hWF : GraphWF g)
    (hts : ∀ p ∈ g.nodes, p.2.timestamp.Valid) :
    ∃ g2, load_json (save_json g) = some g2 ∧
      g2.nodes = g.nodes ∧
      (∀ e, e ∈ g2.edges ↔ e ∈ g.edges) ∧
      EdgeKeysNodup g2.edges := by
  obtain ⟨hnd, hkeys, hclosed⟩ := hWF
  refine ⟨⟨g.nodes, edgeIter g⟩, ?_, rfl, ?_, ?_⟩
  · unfold load_json save_json
    rw [mapM_roundtrip g.nodes hts]
    simp only [Option.bind_eq_bind, Option.some_bind]
    have hiter := edgeIter_keys_nodup g hnd hkeys
    have hfold := foldl_add_edge (edgeIter g) [] g.nodes (by simpa using hiter)
    simp only [List.nil_append] at hfold
    rw [hfold]
  · intro e
    exact edgeIter_mem g hclosed e
  · exact edgeIter_keys_nodup g hnd hkeys

/-- C5 witness: the round trip instantiated at the concrete graph gPQ, whose
timestamps carry a positive offset with microseconds and a negative offset
without them. -/
theorem c5_persistence_roundtrip_witness :
    ∃ g2, load_json (save_json gPQ) = some g2 ∧
      g2.nodes = gPQ.nodes ∧
      (∀ e, e ∈ g2.edges ↔ e ∈ gPQ.edges) ∧
      EdgeKeysNodup g2.edges :=
  c5_persistence_roundtrip gPQ
    (by unfold GraphWF EdgeKeysNodup EdgesClosed
        refine ⟨by decide, ?_, by decide⟩
        unfold gPQ
        simp)
    (by decide)

/-! ## Claim C6 -/

/-- C6 counterexample: equal-similarity ties are not returned in the
original graph iteration order. On the two-node graph gAB with a constant
embedder every similarity is 1, and retrieve_semantic returns [evB, evA]
(the reversal of np.argsort flips tied candidates), not [evA, evB]. -/
theorem c6_counterexample_tie_order :
    retrieve_semantic gAB constEmb "q" 2 = .ok [evB, evA] ∧
    ([evB, evA] : List MemoryEvent) ≠ [evA, evB] := by
  have hsims : simsOf gAB constEmb "q" = [1, 1] := by
    unfold simsOf gAB constEmb evA evB eventText pyStrPayload jlookup l2norm dotProduct
    norm_num [Real.sqrt_one]
  have hidx : retrieveIdx [(1 : ℝ), 1] 2 = [1, 0] := by
    unfold retrieveIdx argsortAsc pyTail
    norm_num [pySort, pyInsert, List.getD]
  constructor
  · unfold retrieve_semantic
    simp only [gAB] at hsims ⊢
    rw [hsims, hidx]
    simp [evA, evB, List.getD]
  · simp [evA, evB]

/-! ## Stable sort: length, membership and sortedness -/

lemma pyInsert_length (le : α → α → Bool) (x : α) (l : List α) :
    (pyInsert le x l).length = l.length + 1 := by
  induction l with
  | nil => rfl
  | cons y ys ih =>
    simp only [pyInsert]
    split
    · simp
    · simp [ih]

lemma pySort_length (le : α → α → Bool) (l : List α) :
    (pySort le l).length = l.length := by
  induction l with
  | nil => rfl
  | cons x xs ih =>
    simp only [pySort, pyInsert_length, ih, List.length_cons]

lemma mem_pyInsert (le : α → α → Bool) (x a : α) (l : List α) :
    a ∈ pyInsert le x l ↔ a = x ∨ a ∈ l := by
  induction l with
  | nil => simp [pyInsert]
  | cons y ys ih =>
    simp only [pyInsert]
    split
    · simp [List.mem_cons]
    · simp only [List.mem_cons, ih]
      tauto

lemma mem_pySort (le : α → α → Bool) (l : List α) (a : α) :
    a ∈ pySort le l ↔ a ∈ l := by
  induction l with
  | nil => simp [pySort]
  | cons x xs ih =>
    simp only [pySort, mem_pyInsert, ih, List.mem_cons]

lemma pyInsert_pairwise (le : α → α → Bool) (lt : α → α → Prop)
    (htot : ∀ a b, le a b = true ∨ le b a = true)
    (htrans : ∀ a b c, le a b = true → le b c = true → le a c = true)
    (x : α) (l : List α)
    (hl : l.Pairwise (fun a b => le a b = true ∧ (le b a = true → lt a b)))
    (hx : ∀ y ∈ l, lt x y) :
    (pyInsert le x l).Pairwise (fun a b => le a b = true ∧ (le b a = true → lt a b)) := by
  induction l with
  | nil => simp [pyInsert]
  | cons y ys ih =>
    rw [List.pairwise_cons] at hl
    obtain ⟨hy, hys⟩ := hl
    simp only [pyInsert]
    split
    · rename_i hxy
      rw [List.pairwise_cons]
      refine ⟨?_, List.pairwise_cons.2 ⟨hy, hys⟩⟩
      intro z hz
      rcases List.mem_cons.1 hz with hz | hz
      · subst hz
        exact ⟨hxy, fun _ => hx z (List.mem_cons_self z ys)⟩
      · refine ⟨htrans x y z hxy (hy z hz).1, fun _ => hx z (List.mem_cons_of_mem y hz)⟩
    · rename_i hxy
      have hxyf : le x y = false := Bool.eq_false_iff.2 hxy
      rw [List.pairwise_cons]
      constructor
      · intro z hz
        rcases (mem_pyInsert le x z ys).1 hz with hz | hz
        · subst hz
          have hyx : le y z = true := by
            rcases htot z y with h | h
            · exact absurd h (by rw [hxyf]; simp)
            · exact h
          exact ⟨hyx, fun hc => absurd hc (by rw [hxyf]; simp)⟩
        · exact hy z hz
      · exact ih hys (fun z hz => hx z (List.mem_cons_of_mem y hz))

lemma pySort_pairwise (le : α → α → Bool) (lt : α → α → Prop)
    (htot : ∀ a b, le a b = true ∨ le b a = true)
    (htrans : ∀ a b c, le a b = true → le b c = true → le a c = true)
    (l : List α) (hl : l.Pairwise lt) :
    (pySort le l).Pairwise (fun a b => le a b = true ∧ (le b a = true → lt a b)) := by
  induction l with
  | nil => simp [pySort]
  | cons x xs ih =>
    rw [List.pairwise_cons] at hl
    obtain ⟨hx, hxs⟩ := hl
    simp only [pySort]
    exact pyInsert_pairwise le lt htot htrans x (pySort le xs) (ih hxs)
      (fun y hy => hx y ((mem_pySort le xs y).1 hy))

/-! ## argsort characterization -/

lemma argsortAsc_pairwise (sims : List ℝ) :
    (argsortAsc sims).Pairwise (fun i j =>
      sims.getD i 0 < sims.getD j 0 ∨ (sims.getD i 0 = sims.getD j 0 ∧ i < j)) := by
  unfold argsortAsc
  have h := pySort_pairwise (fun i j => decide (sims.getD i 0 ≤ sims.getD j 0))
    (fun i j => i < j)
    (fun a b => by
      rcases le_total (sims.getD a 0) (sims.getD b 0) with h | h
      · exact Or.inl (decide_eq_true h)
      · exact Or.inr (decide_eq_true h))
    (fun a b c hab hbc =>
      decide_eq_true (le_trans (of_decide_eq_true hab) (of_decide_eq_true hbc)))
    (List.range sims.length) (List.pairwise_lt_range sims.length)
  apply h.imp
  intro a b hab
  obtain ⟨h1, h2⟩ := hab
  have hle : sims.getD a 0 ≤ sims.getD b 0 := of_decide_eq_true h1
  by_cases htie : sims.getD b 0 ≤ sims.getD a 0
  · exact Or.inr ⟨le_antisymm hle htie, h2 (decide_eq_true htie)⟩
  · exact Or.inl (lt_of_le_not_le hle htie)

lemma argsortAsc_mem (sims : List ℝ) (i : ℕ) (h : i ∈ argsortAsc sims) :
    i < sims.length := by
  unfold argsortAsc at h
  rw [mem_pySort] at h
  exact List.mem_range.1 h

/-! ## retrieveIdx characterization -/

lemma retrieveIdx_length (sims : List ℝ) (k : ℕ) (hk : 1 ≤ k) :
    (retrieveIdx sims k).length ≤ k := by
  unfold retrieveIdx pyTail
  rw [if_neg (by omega : ¬ k = 0)]
  simp only [List.length_reverse, List.length_drop]
  omega

lemma retrieveIdx_mem (sims : List ℝ) (k : ℕ) (i : ℕ) (h : i ∈ retrieveIdx sims k) :
    i < sims.length := by
  unfold retrieveIdx pyTail at h
  rw [List.mem_reverse] at h
  apply argsortAsc_mem sims i
  split at h
  · exact h
  · exact List.mem_of_mem_drop h

lemma retrieveIdx_pairwise (sims : List ℝ) (k : ℕ) :
    (retrieveIdx sims k).Pairwise (fun i j =>
      sims.getD j 0 < sims.getD i 0 ∨ (sims.getD j 0 = sims.getD i 0 ∧ j < i)) := by
  unfold retrieveIdx
  rw [List.pairwise_reverse]
  have hbase := argsortAsc_pairwise sims
  have hsub : (pyTail k (argsortAsc sims)).Pairwise (fun i j =>
      sims.getD i 0 < sims.getD j 0 ∨ (sims.getD i 0 = sims.getD j 0 ∧ i < j)) := by
    unfold pyTail
    split
    · exact hbase
    · exact hbase.sublist (List.drop_sublist _ _)
  exact hsub.imp (fun {a b} hab => hab)

/-! ## simsOf access -/

lemma getD_map_of_lt (f : α → β) (l : List α) (i : ℕ) (d : β) (d2 : α)
    (h : i < l.length) : (l.map f).getD i d = f (l.getD i d2) := by
  rw [List.getD_eq_getElem?_getD, List.getD_eq_getElem?_getD, List.getElem?_map,
    List.getElem?_eq_getElem h]
  rfl

lemma simsOf_length (g : MemoryGraph) (embedder : String → List ℝ) (text : String) :
    (simsOf g embedder text).length = g.nodes.length := by
  unfold simsOf
  simp

lemma simsOf_getD (g : MemoryGraph) (embedder : String → List ℝ) (text : String)
    (i : ℕ) (hi : i < g.nodes.length) :
    (simsOf g embedder text).getD i 0 =
      (fun v => if l2norm v * l2norm (embedder text) ≠ 0
        then dotProduct v (embedder text) / (l2norm v * l2norm (embedder text)) else 0)
      (embedder (eventText ((g.nodes.map (fun p => p.2)).getD i dummyEvent))) := by
  unfold simsOf
  rw [getD_map_of_lt _ _ i 0
    (embedder (eventText ((g.nodes.map (fun p => p.2)).getD i dummyEvent)))
    (by simpa using hi)]
  rw [getD_map_of_lt _ _ i _ (eventText ((g.nodes.map (fun p => p.2)).getD i dummyEvent))
    (by simpa using hi)]
  rw [getD_map_of_lt _ _ i _ dummyEvent (by simpa using hi)]

lemma retrieve_semantic_ok (g : MemoryGraph) (embedder : String → List ℝ) (text : String)
    (k : ℕ) (hne : g.nodes ≠ []) :
    retrieve_semantic g embedder text k =
      .ok ((retrieveIdx (simsOf g embedder text) k).map
        (fun i => (g.nodes.map (fun p => p.2)).getD i dummyEvent)) := by
  unfold retrieve_semantic
  cases hg : g.nodes with
  | nil => exact absurd hg hne
  | cons a rest => rfl

/-- C6 amended: for every nonempty graph, embedder, query and k at least 1,
retrieve_semantic succeeds and returns the events selected by an index list
idxs with: at most k entries, all indexing real candidates, ordered by
strictly descending similarity with equal-similarity ties in reversed graph
iteration order (the [::-1] reversal of the stable ascending argsort puts
the later-inserted tied candidate first, not the earlier one), and any
candidate whose embedding-norm product with the query is zero gets
similarity 0 rather than an error. For k = 0 the slice [-0:] returns every
candidate, so the at-most-k bound needs k at least 1. -/
theorem c6_amended_retrieve_semantic (g : MemoryGraph) (embedder : String → List ℝ)
    (text : String) (k : ℕ) (hk : 1 ≤ k) (hne : g.nodes ≠ []) :
    ∃ idxs : List ℕ,
      retrieve_semantic g embedder text k =
        .ok (idxs.map (fun i => (g.nodes.map (fun p => p.2)).getD i dummyEvent)) ∧
      idxs.length ≤ k ∧
      (∀ i ∈ idxs, i < g.nodes.length) ∧
      idxs.Pairwise (fun i j => simVal g embedder text j < simVal g embedder text i ∨
        (simVal g embedder text j = simVal g embedder text i ∧ j < i)) ∧
      (∀ i, i < g.nodes.length →
        l2norm (embedder (eventText ((g.nodes.map (fun p => p.2)).getD i dummyEvent))) *
          l2norm (embedder text) = 0 →
        simVal g embedder text i = 0) := by
  refine ⟨retrieveIdx (simsOf g embedder text) k,
    retrieve_semantic_ok g embedder text k hne,
    retrieveIdx_length _ k hk, ?_, ?_, ?_⟩
  · intro i hi
    have := retrieveIdx_mem _ k i hi
    rwa [simsOf_length] at this
  · exact retrieveIdx_pairwise _ k
  · intro i hi hz
    unfold simVal
    rw [simsOf_getD g embedder text i hi]
    dsimp only
    rw [if_neg (not_not_intro hz)]

/-- C6 witness: the amended statement instantiated at the concrete graph gAB
with the constant embedder, query q and k = 2. -/
theorem c6_amended_retrieve_semantic_witness :
    ∃ idxs : List ℕ,
      retrieve_semantic gAB constEmb "q" 2 =
        .ok (idxs.map (fun i => (gAB.nodes.map (fun p => p.2)).getD i dummyEvent)) ∧
      idxs.length ≤ 2 ∧
      (∀ i ∈ idxs, i < gAB.nodes.length) ∧
      idxs.Pairwise (fun i j => simVal gAB constEmb "q" j < simVal gAB constEmb "q" i ∨
        (simVal gAB constEmb "q" j = simVal gAB constEmb "q" i ∧ j < i)) ∧
      (∀ i, i < gAB.nodes.length →
        l2norm (constEmb (eventText ((gAB.nodes.map (fun p => p.2)).getD i dummyEvent))) *
          l2norm (constEmb "q") = 0 →
        simVal gAB constEmb "q" i = 0) :=
  c6_amended_retrieve_semantic gAB constEmb "q" 2 (by norm_num) (by simp [gAB])

end QPF
